import Mathlib

/-!
Shallow embedding of the stomp-websocket client (frame codec in
src/stomp.js, connection engine in the accompanying client file).

Modelling conventions:
* JavaScript strings are modelled as `List Char`.  All inputs relevant to
  the claims live in the basic multilingual plane, where JS UTF-16
  code-unit indexing coincides with character indexing, so `List Char`
  is an exact model of the string operations used by the code
  (`substring`, `charAt`, `indexOf`, `split`, `search`, `length`).
* JavaScript header values are either strings or the boolean sentinel
  `false` (the only non-string value the code stores), modelled by `JVal`.
* JS objects used as string-keyed maps are modelled as association lists
  with JS assignment (`jsInsert`, overwrite in place), `delete`
  (`jsDelete`) and member lookup (`jsLookup`).
* The source file refers to the linefeed constant inconsistently
  (`BYTES_LF` at its definition site, `BYTES.LF` / `Byte.LF` at some use
  sites) and calls `unmarshallSingle` without its `Frame.` qualifier;
  all of these resolve to the single linefeed constant / static method
  defined in the same file, and are embedded that way.
* Functions whose JS counterparts can loop forever on degenerate
  parameters (chunked transmit with a zero maximum size, splitting)
  take explicit fuel; the fuel chosen at the wrapper is always
  sufficient for the actual parameter spaces of the claims.
-/

namespace Stomp

/-- LINEFEED byte (octet 10), the `BYTES_LF` constant of the source. -/
def BYTES_LF : Char := '\n'

/-- NULL byte (octet 0), the `BYTES_NULL` constant of the source. -/
def BYTES_NULL : Char := Char.ofNat 0

/-- JavaScript values stored in header maps: strings, or the boolean
content-length suppression sentinel. -/
inductive JVal where
  | str (s : List Char)
  | bool (b : Bool)
deriving DecidableEq, Repr

instance : Inhabited JVal := ⟨.str []⟩

/-- Header maps are insertion-ordered association lists, mirroring plain
JS objects used as maps. -/
abbrev Headers := List (List Char × JVal)

/-- JS property read `m[k]`: first binding wins (keys are unique in maps
built by `jsInsert`). -/
def jsLookup {α : Type} : List (List Char × α) → List Char → Option α
  | [], _ => none
  | p :: rest, k => if p.1 = k then some p.2 else jsLookup rest k

/-- JS property write `m[k] = v`: overwrite an existing binding in place,
otherwise append the new binding. -/
def jsInsert {α : Type} : List (List Char × α) → List Char → α → List (List Char × α)
  | [], k, v => [(k, v)]
  | p :: rest, k, v => if p.1 = k then (p.1, v) :: rest else p :: jsInsert rest k v

/-- JS `delete m[k]`. -/
def jsDelete {α : Type} : List (List Char × α) → List Char → List (List Char × α)
  | [], _ => []
  | p :: rest, k => if p.1 = k then jsDelete rest k else p :: jsDelete rest k

/-- JS truthiness of a possibly-absent header value: `undefined`, the
empty string and `false` are falsy. -/
def truthy : Option JVal → Bool
  | none => false
  | some (.str s) => !s.isEmpty
  | some (.bool b) => b

/-- JS string coercion of a header value, as performed by template
interpolation. -/
def renderJVal : JVal → List Char
  | .str s => s
  | .bool true => String.data "true"
  | .bool false => String.data "false"

/-- Whitespace class of the JS regexp escape backslash-s, used by `trim`. -/
def jsIsSpace (c : Char) : Bool :=
  let v := c.toNat
  v = 9 ∨ v = 10 ∨ v = 11 ∨ v = 12 ∨ v = 13 ∨ v = 32 ∨ v = 160 ∨ v = 5760 ∨
    (8192 ≤ v ∧ v ≤ 8202) ∨ v = 8232 ∨ v = 8233 ∨ v = 8239 ∨ v = 8287 ∨
    v = 12288 ∨ v = 65279

/-- Utility `trim` of the source: strips leading and trailing whitespace. -/
def trim (s : List Char) : List Char :=
  ((s.dropWhile jsIsSpace).reverse.dropWhile jsIsSpace).reverse

/-- Clamp an integer index into the bounds of a string of length `len`,
as the ECMAScript `String.prototype.substring` conversion does. -/
def clampIdx (i : Int) (len : Nat) : Nat :=
  (min (max i 0) (len : Int)).toNat

/-- JS `s.substring(a, b)`: clamp both indices into range and swap them
when given in decreasing order. -/
def jsSubstring (s : List Char) (a b : Int) : List Char :=
  let x := clampIdx a s.length
  let y := clampIdx b s.length
  (s.take (max x y)).drop (min x y)

/-- JS `s.substring(a)` (end of string implied). -/
def jsSubstringFrom (s : List Char) (a : Int) : List Char :=
  jsSubstring s a (s.length : Int)

/-- JS `s.indexOf(c)`: index of the first occurrence, `-1` if absent. -/
def jsIndexOf : List Char → Char → Int
  | [], _ => -1
  | c :: rest, t =>
    if c = t then 0
    else match jsIndexOf rest t with
      | -1 => -1
      | i => i + 1

/-- Position of the first occurrence of two consecutive linefeeds, the
match position of the regexp used by `unmarshallSingle`. -/
def findLFLF : List Char → Option Nat
  | [] => none
  | [_] => none
  | a :: rest =>
    if a = BYTES_LF ∧ rest.head? = some BYTES_LF then some 0
    else (findLFLF rest).map (· + 1)

/-- JS `data.search(new RegExp(BYTES_LF + BYTES_LF))`: `-1` when there is
no occurrence. -/
def searchLFLF (s : List Char) : Int :=
  match findLFLF s with
  | some n => (n : Int)
  | none => -1

/-- JS `s.split(BYTES_LF)` with a plain one-character separator. -/
def jsSplitLF : List Char → List (List Char)
  | [] => [[]]
  | c :: rest =>
    if c = BYTES_LF then [] :: jsSplitLF rest
    else match jsSplitLF rest with
      | [] => [[c]]
      | p :: ps => (c :: p) :: ps

/-- Decimal digit character. -/
def digitChar (n : Nat) : Char := Char.ofNat (48 + n)

/-- Fuelled decimal printer; the fuel is always sufficient at the
`decimalRepr` wrapper.  Structural recursion keeps it kernel-reducible. -/
def decimalReprAux : Nat → Nat → List Char
  | 0, _ => []
  | fuel + 1, n =>
    if n < 10 then [digitChar n]
    else decimalReprAux fuel (n / 10) ++ [digitChar (n % 10)]

/-- Decimal representation of a natural number, as produced by JS template
interpolation of a number. -/
def decimalRepr (n : Nat) : List Char := decimalReprAux (n + 1) n

/-- Decimal digit test. -/
def isDigitChar (c : Char) : Bool := 48 ≤ c.toNat ∧ c.toNat ≤ 57

/-- Value of a digit list (most significant first). -/
def digitsToNat (ds : List Char) : Nat :=
  ds.foldl (fun a c => a * 10 + (c.toNat - 48)) 0

/-- Longest digit prefix, `none` when empty (the NaN case of `parseInt`). -/
def parseDigitsPrefix (s : List Char) : Option Nat :=
  let ds := s.takeWhile isDigitChar
  if ds.isEmpty then none else some (digitsToNat ds)

/-- JS `parseInt(s, 10)`: skip whitespace, optional sign, digit prefix;
`none` models NaN. -/
def jsParseInt (s : List Char) : Option Int :=
  match s.dropWhile jsIsSpace with
  | '-' :: rest => (parseDigitsPrefix rest).map (fun n => -(n : Int))
  | '+' :: rest => (parseDigitsPrefix rest).map (fun n => (n : Int))
  | rest => (parseDigitsPrefix rest).map (fun n => (n : Int))

/-- Characters the JS `encodeURI` builtin leaves unescaped (unreserved and
reserved URI characters). -/
def uriUnescaped (c : Char) : Bool :=
  let v := c.toNat
  (65 ≤ v ∧ v ≤ 90) ∨ (97 ≤ v ∧ v ≤ 122) ∨ (48 ≤ v ∧ v ≤ 57) ∨
    v ∈ [59, 44, 47, 63, 58, 64, 38, 61, 43, 36, 45, 95, 46, 33, 126, 42, 39, 40, 41, 35]

/-- UTF-8 bytes of a character. -/
def utf8Bytes (c : Char) : List Nat :=
  let v := c.toNat
  if v < 128 then [v]
  else if v < 2048 then [192 + v / 64, 128 + v % 64]
  else if v < 65536 then [224 + v / 4096, 128 + v / 64 % 64, 128 + v % 64]
  else [240 + v / 262144, 128 + v / 4096 % 64, 128 + v / 64 % 64, 128 + v % 64]

/-- UTF-8 byte width of a character. -/
def charUtf8Size (c : Char) : Nat := (utf8Bytes c).length

/-- Uppercase hexadecimal digit. -/
def hexDigit (n : Nat) : Char :=
  if n < 10 then Char.ofNat (48 + n) else Char.ofNat (55 + n)

/-- Percent-encoding of one byte, as emitted by `encodeURI`. -/
def pctByte (b : Nat) : List Char := ['%', hexDigit (b / 16), hexDigit (b % 16)]

/-- JS `encodeURI`: unescaped characters pass through, all others are
percent-encoded as UTF-8. -/
def encodeURI (s : List Char) : List Char :=
  s.flatMap fun c =>
    if uriUnescaped c then [c] else (utf8Bytes c).flatMap pctByte

/-- Number of matches of the regexp alternation of a percent triple or a
single character, scanned left to right (the counting step of
`sizeOfUTF8`). -/
def countMatches : List Char → Nat
  | [] => 0
  | '%' :: _ :: _ :: rest => 1 + countMatches rest
  | _ :: rest => 1 + countMatches rest

/-- The `Frame.sizeOfUTF8` static of the source: byte size of the UTF-8
encoding of a string, computed by counting regexp matches over the
`encodeURI` image. -/
def sizeOfUTF8 (s : List Char) : Nat :=
  if s.isEmpty then 0 else countMatches (encodeURI s)

/-- The `content-length` header name. -/
def clKey : List Char := String.data "content-length"

/-- STOMP frame value as built by the `Frame` constructor: command,
headers, body. -/
structure Frame where
  command : List Char
  headers : Headers
  body : List Char
deriving DecidableEq, Repr

namespace Frame

/-- Strict-equality test `this.headers[..] === false` of `toString`. -/
def skipCL (h : Headers) : Bool :=
  match jsLookup h clKey with
  | some (.bool false) => true
  | _ => false

/-- Headers object after the conditional `delete` performed by
`toString` (this mutation is visible to the caller). -/
def headersAfter (h : Headers) : Headers :=
  if skipCL h then jsDelete h clKey else h

/-- Rendered wire line of one header entry. -/
def renderHeader (p : List Char × JVal) : List Char :=
  p.1 ++ ':' :: renderJVal p.2

/-- Computed `content-length` line appended by `toString` for a truthy
body when suppression is not requested. -/
def computedCL (body : List Char) : List Char :=
  clKey ++ ':' :: decimalRepr (sizeOfUTF8 body)

/-- Header lines pushed by `toString` between the command and the body:
one line per remaining header, then the computed content-length line
when the body is non-empty and suppression was not requested. -/
def toStringHeaderLines (h : Headers) (body : List Char) : List (List Char) :=
  (headersAfter h).map renderHeader ++
    (if ¬body.isEmpty ∧ ¬skipCL h then [computedCL body] else [])

/-- The `lines` array of `toString` just before joining: command, header
lines, then a final element carrying the blank divider line and the body. -/
def toStringLines (command : List Char) (h : Headers) (body : List Char) : List (List Char) :=
  command :: toStringHeaderLines h body ++ [BYTES_LF :: body]

/-- JS `lines.join(BYTES_LF)`. -/
def joinLF : List (List Char) → List Char
  | [] => []
  | [x] => x
  | x :: xs => x ++ BYTES_LF :: joinLF xs

/-- The `toString` method: returns the wire text and the headers object
as left behind by the conditional `delete` (the caller-visible mutation). -/
def toStringM (command : List Char) (h : Headers) (body : List Char) :
    List Char × Headers :=
  (joinLF (toStringLines command h body), headersAfter h)

/-- Wire text of a frame (the returned value of `toString`). -/
def toWire (command : List Char) (h : Headers) (body : List Char) : List Char :=
  (toStringM command h body).1

/-- The `Frame.marshall` static: serialize and append the NULL sentinel. -/
def marshall (command : List Char) (h : Headers) (body : List Char) : List Char :=
  toWire command h body ++ [BYTES_NULL]

/-- Header lines of a wire buffer, as computed by `unmarshallSingle`:
everything before the first double linefeed, split on linefeeds, with the
command line shifted off. -/
def wireHeaderLines (data : List Char) : List (List Char) :=
  (jsSplitLF (jsSubstring data 0 (searchLFLF data))).tail

/-- Command line of a wire buffer, as computed by `unmarshallSingle`. -/
def wireCommand (data : List Char) : List Char :=
  (jsSplitLF (jsSubstring data 0 (searchLFLF data))).headD []

/-- Parse of one header line: split at the first colon, trim both sides. -/
def parseHeaderLine (line : List Char) : List Char × JVal :=
  let idx := jsIndexOf line ':'
  (trim (jsSubstring line 0 idx), .str (trim (jsSubstringFrom line (idx + 1))))

/-- The header loop of `unmarshallSingle`: lines are inserted in reverse
order, so on repeated names the line closest to the command wins. -/
def parseHeaderLines (lines : List (List Char)) : Headers :=
  lines.reverse.foldl
    (fun m line => jsInsert m (parseHeaderLine line).1 (parseHeaderLine line).2) []

/-- The `Frame.unmarshallSingle` static: split command and headers from
the body at the first double linefeed, parse headers in reverse order,
then read the body either by `content-length` or up to the first NULL. -/
def unmarshallSingle (data : List Char) : Frame :=
  let divider := searchLFLF data
  let headers := parseHeaderLines (wireHeaderLines data)
  let bodyIndex := divider + 2
  let clv := jsLookup headers clKey
  let body :=
    if truthy clv then
      match (match clv with
             | some v => jsParseInt (renderJVal v)
             | none => none) with
      | some len => jsSubstring data bodyIndex (bodyIndex + len)
      | none => jsSubstring data bodyIndex 0
    else
      (data.drop bodyIndex.toNat).takeWhile (fun c => ¬c = BYTES_NULL)
  ⟨wireCommand data, headers, body⟩

/-- Fuelled splitter over the regexp of a NULL followed by any number of
linefeeds; the fuel at the `splitNullLF` wrapper is always sufficient. -/
def splitNullLFAux : Nat → List Char → List (List Char)
  | 0, s => [s]
  | fuel + 1, s =>
    match s with
    | [] => [[]]
    | c :: rest =>
      if c = BYTES_NULL then
        [] :: splitNullLFAux fuel (rest.dropWhile (fun x => x = BYTES_LF))
      else
        match splitNullLFAux fuel rest with
        | [] => [[c]]
        | p :: ps => (c :: p) :: ps

/-- JS `datas.split(new RegExp(BYTES_NULL + BYTES_LF + zero-or-more))`. -/
def splitNullLF (s : List Char) : List (List Char) :=
  splitNullLFAux (s.length + 1) s

/-- Test of the regexp of a NULL plus trailing linefeeds anchored at the
end of the string, used on the last piece by `unmarshall`. -/
def hasNullLFSuffix (s : List Char) : Bool :=
  (s.reverse.dropWhile (fun x => x = BYTES_LF)).head? = some BYTES_NULL

/-- Result record of `Frame.unmarshall`: parsed frames plus the partial
remainder handed back to the caller for buffering. -/
structure UnmarshallResult where
  frames : List Frame
  partialData : List Char
deriving DecidableEq, Repr

/-- The `Frame.unmarshall` static: split on NULL separators (consuming
heartbeat linefeed padding), parse every complete piece, and either parse
the last piece (bare heartbeat or sentinel-terminated) or return it as
the partial remainder. -/
def unmarshall (datas : List Char) : UnmarshallResult :=
  let pieces := splitNullLF datas
  let firstFrames := pieces.dropLast
  let lastFrame := pieces.getLastD []
  let base := firstFrames.map unmarshallSingle
  if lastFrame = [BYTES_LF] ∨ hasNullLFSuffix lastFrame then
    ⟨base ++ [unmarshallSingle lastFrame], []⟩
  else
    ⟨base, lastFrame⟩

end Frame

namespace Client

/-- Fuelled chunking loop of `Client._transmit`; with a zero maximum
chunk size the JS loop never terminates, so the fuel chosen by
`transmitChunks` only guards that degenerate case. -/
def transmitLoop (maxSize : Nat) : Nat → List Char → List (List Char)
  | 0, out => [out]
  | fuel + 1, out =>
    if out.length > maxSize then
      out.take maxSize :: transmitLoop maxSize fuel (out.drop maxSize)
    else
      [out]

/-- Payloads of the successive `ws.send` calls performed by
`Client._transmit` on an already marshalled frame. -/
def transmitChunks (maxSize : Nat) (out : List Char) : List (List Char) :=
  transmitLoop maxSize (out.length + 1) out

/-- Version string 1.1.  Modelled from the spec: the source reads it from
a `Stomp.VERSIONS` table defined outside the provided files; the spec
names 1.1 and 1.2 as the two heartbeat-capable protocol versions. -/
def V1_1 : List Char := String.data "1.1"

/-- Version string 1.2.  Modelled from the spec, as for `V1_1`. -/
def V1_2 : List Char := String.data "1.2"

/-- Timers started by `Client._setupHeartbeat`: the outgoing-ping
interval and the incoming-check (pong watchdog) interval, `none` when
the corresponding timer is not started. -/
structure HeartbeatTimers where
  pinger : Option Nat
  ponger : Option Nat
deriving DecidableEq, Repr

/-- Millisecond value used by `Math.max` against a parsed peer interval;
an unparsable peer value (the NaN case) is absorbed by the client value. -/
def maxWithPeer (client : Nat) (peer : Option Int) : Nat :=
  match peer with
  | some n => max client n.toNat
  | none => client

/-- The `Client._setupHeartbeat` method.  Its guard compares the version
header against the two supported versions with a disjunction of
inequalities, which no single value can falsify, so the body below the
guard is unreachable.  The body is still embedded faithfully: parse the
peer heart-beat header pair, and start each timer at the maximum of the
two desired intervals unless either side disabled it with zero. -/
def setupHeartbeat (hbOutgoing hbIncoming : Nat) (version : List Char)
    (heartBeat : List Char) : HeartbeatTimers :=
  if ¬version = V1_1 ∨ ¬version = V1_2 then ⟨none, none⟩
  else
    let parts := (heartBeat.splitOn ',').map jsParseInt
    let serverOutgoing := (parts.get? 0).getD none
    let serverIncoming := (parts.get? 1).getD none
    let pinger :=
      if ¬(hbOutgoing = 0 ∨ serverIncoming = some 0) then
        some (maxWithPeer hbOutgoing serverIncoming)
      else none
    let ponger :=
      if ¬(hbIncoming = 0 ∨ serverOutgoing = some 0) then
        some (maxWithPeer hbIncoming serverOutgoing)
      else none
    ⟨pinger, ponger⟩

/-- The `id` header name. -/
def idKey : List Char := String.data "id"

/-- The `destination` header name. -/
def destKey : List Char := String.data "destination"

/-- Subscription-related state of a `Client`, with callbacks abstracted
by an arbitrary type `Cb`. -/
structure State (Cb : Type) where
  counter : Nat
  subscriptions : List (List Char × Cb)
  onreceive : Option Cb
deriving Repr

/-- Record of one `_transmit` call: the command, headers and body handed
to `Frame.marshall`. -/
structure Transmission where
  command : List Char
  headers : Headers
  body : List Char
deriving DecidableEq, Repr

/-- String coercion of a truthy header value used as a subscription id. -/
def idOf (v : Option JVal) : List Char :=
  match v with
  | some jv => renderJVal jv
  | none => []

/-- The `Client.subscribe` method: mint a `sub-` id from the shared
counter when the caller supplied none, record the callback, transmit a
SUBSCRIBE frame, and return the id the caller can unsubscribe with. -/
def subscribe {Cb : Type} (c : State Cb) (destination : List Char) (callback : Cb)
    (headers : Headers) : State Cb × List Char × Transmission :=
  let supplied := jsLookup headers idKey
  let (id, counter1) :=
    if truthy supplied then (idOf supplied, c.counter)
    else (String.data "sub-" ++ decimalRepr c.counter, c.counter + 1)
  let headers1 := if truthy supplied then headers else jsInsert headers idKey (.str id)
  let headers2 := jsInsert headers1 destKey (.str destination)
  (⟨counter1, jsInsert c.subscriptions id callback, c.onreceive⟩,
   id, ⟨String.data "SUBSCRIBE", headers2, []⟩)

/-- The `Client.unsubscribe` method: drop the table entry and transmit an
UNSUBSCRIBE frame unconditionally. -/
def unsubscribe {Cb : Type} (c : State Cb) (id : List Char) : State Cb × Transmission :=
  (⟨c.counter, jsDelete c.subscriptions id, c.onreceive⟩,
   ⟨String.data "UNSUBSCRIBE", [(idKey, .str id)], []⟩)

/-- Outcome of dispatching one MESSAGE frame. -/
inductive DispatchResult (Cb : Type) where
  | invoked (cb : Cb)
  | dropped
deriving DecidableEq, Repr

/-- MESSAGE dispatch of the `connect` onmessage handler: the handler is
the registered subscription callback, else the default `onreceive`
handler, else the frame is only logged. -/
def dispatchMessage {Cb : Type} (c : State Cb) (subscription : List Char) :
    DispatchResult Cb :=
  match jsLookup c.subscriptions subscription with
  | some cb => .invoked cb
  | none =>
    match c.onreceive with
    | some d => .invoked d
    | none => .dropped

end Client

/-! Association list lemmas for the JS object model. -/

theorem jsLookup_jsInsert {α : Type} (m : List (List Char × α)) (k : List Char) (v : α)
    (key : List Char) :
    jsLookup (jsInsert m k v) key = if k = key then some v else jsLookup m key := by
  induction m with
  | nil => simp [jsInsert, jsLookup]
  | cons p rest ih =>
    by_cases hpk : p.1 = k
    · subst hpk
      by_cases hk : p.1 = key
      · simp only [jsInsert, if_pos rfl, jsLookup, if_pos hk]
      · simp only [jsInsert, if_pos rfl, jsLookup, if_neg hk]
    · simp only [jsInsert, if_neg hpk, jsLookup]
      by_cases hpkey : p.1 = key
      · have hk : ¬k = key := fun h => hpk (by rw [hpkey, h])
        simp only [if_pos hpkey, if_neg hk]
      · simp only [if_neg hpkey, ih]

theorem jsLookup_append {α : Type} (a b : List (List Char × α)) (key : List Char) :
    jsLookup (a ++ b) key =
      (jsLookup a key).orElse (fun _ => jsLookup b key) := by
  induction a with
  | nil => simp [jsLookup]
  | cons p rest ih =>
    by_cases h : p.1 = key <;> simp [jsLookup, h, ih, Option.orElse]

theorem jsLookup_eq_none {α : Type} (m : List (List Char × α)) (key : List Char)
    (h : ∀ p ∈ m, ¬p.1 = key) : jsLookup m key = none := by
  induction m with
  | nil => rfl
  | cons p rest ih =>
    have h1 : ¬p.1 = key := h p (List.mem_cons_self p rest)
    simp [jsLookup, h1]
    exact ih fun q hq => h q (List.mem_cons_of_mem p hq)

theorem jsLookup_jsDelete_self {α : Type} (m : List (List Char × α)) (key : List Char) :
    jsLookup (jsDelete m key) key = none := by
  induction m with
  | nil => rfl
  | cons p rest ih =>
    by_cases h : p.1 = key <;> simp [jsDelete, jsLookup, h, ih]

theorem jsLookup_jsDelete_ne {α : Type} (m : List (List Char × α)) (k key : List Char)
    (h : ¬k = key) : jsLookup (jsDelete m k) key = jsLookup m key := by
  induction m with
  | nil => rfl
  | cons p rest ih =>
    by_cases hp : p.1 = k
    · have hpkey : ¬p.1 = key := fun hh => h (by rw [← hp, hh])
      simp only [jsDelete, if_pos hp, ih, jsLookup, if_neg hpkey]
    · simp only [jsDelete, if_neg hp, jsLookup]
      by_cases hpk : p.1 = key
      · rw [if_pos hpk, if_pos hpk]
      · rw [if_neg hpk, if_neg hpk, ih]

theorem mem_jsDelete {α : Type} (m : List (List Char × α)) (k : List Char)
    (p : List Char × α) (h : p ∈ jsDelete m k) : p ∈ m ∧ ¬p.1 = k := by
  induction m with
  | nil => cases h
  | cons q rest ih =>
    by_cases hq : q.1 = k
    · simp only [jsDelete, if_pos hq] at h
      rcases ih h with ⟨h1, h2⟩
      exact ⟨List.mem_cons_of_mem q h1, h2⟩
    · simp only [jsDelete, if_neg hq] at h
      rcases List.mem_cons.mp h with h1 | h1
      · exact ⟨h1 ▸ List.mem_cons_self q rest, h1 ▸ hq⟩
      · rcases ih h1 with ⟨h2, h3⟩
        exact ⟨List.mem_cons_of_mem q h2, h3⟩

theorem jsLookup_foldl_jsInsert {α : Type} (ps : List (List Char × α))
    (m : List (List Char × α)) (key : List Char) :
    jsLookup (ps.foldl (fun acc p => jsInsert acc p.1 p.2) m) key =
      (jsLookup ps.reverse key).orElse (fun _ => jsLookup m key) := by
  induction ps generalizing m with
  | nil => simp [jsLookup, Option.orElse]
  | cons p rest ih =>
    simp only [List.foldl_cons, ih, List.reverse_cons, jsLookup_append]
    by_cases h : p.1 = key <;>
      cases hr : jsLookup rest.reverse key <;>
        simp [jsLookup_jsInsert, jsLookup, h, Option.orElse]

/-- Lookup into the headers map built by the reverse-order header loop
equals first-match lookup over the parsed lines in wire order. -/
theorem jsLookup_parseHeaderLines (lines : List (List Char)) (key : List Char) :
    jsLookup (Frame.parseHeaderLines lines) key =
      jsLookup (lines.map Frame.parseHeaderLine) key := by
  have hfold :
      Frame.parseHeaderLines lines =
        (lines.reverse.map Frame.parseHeaderLine).foldl
          (fun acc p => jsInsert acc p.1 p.2) [] := by
    rw [List.foldl_map]
    rfl
  rw [hfold, jsLookup_foldl_jsInsert, List.map_reverse, List.reverse_reverse]
  cases jsLookup (lines.map Frame.parseHeaderLine) key <;> rfl

theorem unmarshallSingle_headers (data : List Char) :
    (Frame.unmarshallSingle data).headers =
      Frame.parseHeaderLines (Frame.wireHeaderLines data) := rfl

/-- C3: when the header block of a wire frame carries two lines with the
same parsed header name and no earlier line uses that name, the value
bound by `unmarshallSingle` is the one of the line closest to the
command, i.e. the first occurrence in wire order. -/
theorem unmarshallSingle_first_header_occurrence_wins
    (data name : List Char) (pre mid post : List (List Char)) (l1 l2 : List Char)
    (hsplit : Frame.wireHeaderLines data = pre ++ l1 :: (mid ++ l2 :: post))
    (h1 : (Frame.parseHeaderLine l1).1 = name)
    (h2 : (Frame.parseHeaderLine l2).1 = name)
    (hpre : ∀ l ∈ pre, ¬(Frame.parseHeaderLine l).1 = name) :
    jsLookup (Frame.unmarshallSingle data).headers name =
      some (Frame.parseHeaderLine l1).2 := by
  rw [unmarshallSingle_headers, jsLookup_parseHeaderLines, hsplit]
  rw [List.map_append, jsLookup_append]
  have hnone : jsLookup (pre.map Frame.parseHeaderLine) name = none := by
    apply jsLookup_eq_none
    intro p hp
    rcases List.mem_map.mp hp with ⟨l, hl, hpl⟩
    exact hpl ▸ hpre l hl
  rw [hnone]
  simp only [List.map_cons, jsLookup, if_pos h1, Option.orElse]

/-- Witness for C3 at the wire header lines a:1 then a:2. -/
theorem unmarshallSingle_first_header_occurrence_wins_witness :
    Frame.wireHeaderLines (String.data "CMD\na:1\na:2\n\nx") =
        [String.data "a:1", String.data "a:2"] ∧
      jsLookup (Frame.unmarshallSingle (String.data "CMD\na:1\na:2\n\nx")).headers
          [Char.ofNat 97] =
        some (.str [Char.ofNat 49]) :=
  ⟨by decide,
   unmarshallSingle_first_header_occurrence_wins
     (String.data "CMD\na:1\na:2\n\nx") [Char.ofNat 97] [] [] []
     (String.data "a:1") (String.data "a:2")
     (by decide) (by decide) (by decide) (by simp)⟩

/-! Totality of the parser.  Every operation `unmarshallSingle` performs
is total (`substring` clamps out-of-range indices, `charAt` is guarded by
the loop bound, `parseInt` has no error path), so the embedding is a
plain total function; on divider-less input the result is the fixed
degenerate frame below. -/

/-- C9: on any buffer containing no double linefeed, `unmarshallSingle`
still returns a frame, deterministically: empty command, no headers, and
a body read from index 1 up to the first NULL byte. -/
theorem unmarshallSingle_total_on_dividerless (data : List Char)
    (hnd : findLFLF data = none) :
    Frame.unmarshallSingle data =
      ⟨[], [], (data.drop 1).takeWhile (fun c => ¬c = BYTES_NULL)⟩ := by
  have hs : searchLFLF data = -1 := by rw [searchLFLF, hnd]
  have hsub : jsSubstring data 0 (-1) = [] := by
    simp [jsSubstring, clampIdx]
  simp [Frame.unmarshallSingle, Frame.wireCommand, Frame.wireHeaderLines, hs, hsub,
    Frame.parseHeaderLines, jsLookup, truthy, jsSplitLF]

/-- Witness for C9 on a buffer with no divider at all. -/
theorem unmarshallSingle_total_on_dividerless_witness :
    findLFLF (String.data "hello") = none ∧
      Frame.unmarshallSingle (String.data "hello") =
        ⟨[], [], String.data "ello"⟩ :=
  ⟨by decide, unmarshallSingle_total_on_dividerless (String.data "hello") (by decide)⟩

/-- C6: the version guard of `_setupHeartbeat` compares the version
header against the two supported versions with a disjunction of
inequalities that no value can falsify, so the method returns before
starting either timer, for every input; in particular, with client
intervals 4000/4000 and a peer heart-beat header of 3000,0 no
pong-watchdog timer is started, although the claim expects one with an
effective interval of 4000 ms. -/
theorem setupHeartbeat_never_starts_timers (hbOut hbIn : Nat)
    (version heartBeat : List Char) :
    Client.setupHeartbeat hbOut hbIn version heartBeat = ⟨none, none⟩ := by
  unfold Client.setupHeartbeat
  by_cases h : version = Client.V1_1
  · have h2 : ¬version = Client.V1_2 := by rw [h]; decide
    rw [if_pos (Or.inr h2)]
  · rw [if_pos (Or.inl h)]

/-- C8: after subscribing and then unsubscribing the returned id, a
MESSAGE frame carrying that subscription id finds no per-subscription
callback: dispatch falls through to the default `onreceive` handler when
one is registered and is otherwise dropped; moreover `unsubscribe` sends
an UNSUBSCRIBE frame for any id, known locally or not. -/
theorem subscribe_then_unsubscribe_falls_through (Cb : Type) (c : Client.State Cb)
    (destination : List Char) (cb : Cb) (other : Client.State Cb) (anyId : List Char) :
    (let s := Client.subscribe c destination cb []
     let u := Client.unsubscribe s.1 s.2.1
     jsLookup u.1.subscriptions s.2.1 = none ∧
       Client.dispatchMessage u.1 s.2.1 =
         (match c.onreceive with
          | some d => .invoked d
          | none => .dropped) ∧
       u.2 = ⟨String.data "UNSUBSCRIBE", [(Client.idKey, .str s.2.1)], []⟩) ∧
    (Client.unsubscribe other anyId).2 =
      ⟨String.data "UNSUBSCRIBE", [(Client.idKey, .str anyId)], []⟩ := by
  refine ⟨⟨?_, ?_, rfl⟩, rfl⟩
  · exact jsLookup_jsDelete_self _ _
  · show Client.dispatchMessage
      ⟨_, jsDelete (jsInsert c.subscriptions _ cb) _, c.onreceive⟩ _ = _
    rw [Client.dispatchMessage, jsLookup_jsDelete_self]

/-! Decimal printing and parsing lemmas. -/

theorem decimalReprAux_fuel (n : Nat) :
    ∀ f1 f2 : Nat, n < f1 → n < f2 → decimalReprAux f1 n = decimalReprAux f2 n := by
  induction n using Nat.strong_induction_on with
  | _ n ih =>
    intro f1 f2 h1 h2
    cases f1 with
    | zero => omega
    | succ g1 =>
      cases f2 with
      | zero => omega
      | succ g2 =>
        by_cases h : n < 10
        · simp [decimalReprAux, h]
        · simp only [decimalReprAux, if_neg h]
          rw [ih (n / 10) (Nat.div_lt_self (by omega) (by omega)) g1 g2
            (by omega) (by omega)]

theorem decimalRepr_of_lt (n : Nat) (h : n < 10) : decimalRepr n = [digitChar n] := by
  simp [decimalRepr, decimalReprAux, h]

theorem decimalRepr_of_ge (n : Nat) (h : 10 ≤ n) :
    decimalRepr n = decimalRepr (n / 10) ++ [digitChar (n % 10)] := by
  have hlt : n / 10 < n := Nat.div_lt_self (by omega) (by omega)
  rw [decimalRepr, decimalRepr, decimalReprAux, if_neg (by omega)]
  rw [decimalReprAux_fuel (n / 10) n (n / 10 + 1) (by omega) (by omega)]

theorem decimalRepr_ne_nil (n : Nat) : ¬decimalRepr n = [] := by
  by_cases h : n < 10
  · rw [decimalRepr_of_lt n h]
    exact List.cons_ne_nil _ _
  · rw [decimalRepr_of_ge n (by omega)]
    simp

theorem digitChar_isDigit (k : Nat) (h : k < 10) : isDigitChar (digitChar k) = true := by
  revert k h
  decide

theorem decimalRepr_all_digits (n : Nat) :
    ∀ c ∈ decimalRepr n, isDigitChar c = true := by
  induction n using Nat.strong_induction_on with
  | _ n ih =>
    by_cases h : n < 10
    · rw [decimalRepr_of_lt n h]
      intro c hc
      rcases List.mem_singleton.mp hc with rfl
      exact digitChar_isDigit n h
    · rw [decimalRepr_of_ge n (by omega)]
      intro c hc
      rcases List.mem_append.mp hc with hm | hm
      · exact ih (n / 10) (Nat.div_lt_self (by omega) (by omega)) c hm
      · rcases List.mem_singleton.mp hm with rfl
        exact digitChar_isDigit (n % 10) (Nat.mod_lt n (by omega))

theorem digitsToNat_append_digit (a : List Char) (d : Char) :
    digitsToNat (a ++ [d]) = digitsToNat a * 10 + (d.toNat - 48) := by
  simp [digitsToNat, List.foldl_append]

theorem digitsToNat_decimalRepr (n : Nat) : digitsToNat (decimalRepr n) = n := by
  induction n using Nat.strong_induction_on with
  | _ n ih =>
    by_cases h : n < 10
    · have hbase : ∀ k, k < 10 → digitsToNat [digitChar k] = k := by decide
      rw [decimalRepr_of_lt n h]
      exact hbase n h
    · rw [decimalRepr_of_ge n (by omega), digitsToNat_append_digit,
        ih (n / 10) (Nat.div_lt_self (by omega) (by omega))]
      have hd : (digitChar (n % 10)).toNat - 48 = n % 10 := by
        have hm : n % 10 < 10 := Nat.mod_lt n (by omega)
        revert hm
        generalize n % 10 = m
        revert m
        decide
      rw [hd]
      omega

theorem digit_not_space (c : Char) (h : isDigitChar c = true) : jsIsSpace c = false := by
  simp only [isDigitChar, decide_eq_true_eq] at h
  simp only [jsIsSpace, decide_eq_false_iff_not]
  omega

theorem digit_ne_minus (c : Char) (h : isDigitChar c = true) : ¬c = '-' := by
  intro hc
  rw [hc] at h
  simp [isDigitChar] at h

theorem digit_ne_plus (c : Char) (h : isDigitChar c = true) : ¬c = '+' := by
  intro hc
  rw [hc] at h
  simp [isDigitChar] at h

theorem jsParseInt_of_digits (s : List Char) (hne : ¬s = [])
    (hd : ∀ c ∈ s, isDigitChar c = true) :
    jsParseInt s = some ((digitsToNat s : Nat) : Int) := by
  obtain ⟨c, cs, rfl⟩ := List.exists_cons_of_ne_nil hne
  have hc : isDigitChar c = true := hd c (List.mem_cons_self c cs)
  have hdrop : (c :: cs).dropWhile jsIsSpace = c :: cs := by
    rw [List.dropWhile_cons, digit_not_space c hc]
    simp
  have htake : (c :: cs).takeWhile isDigitChar = c :: cs :=
    List.takeWhile_eq_self_iff.mpr hd
  rw [jsParseInt, hdrop]
  split
  · rename_i rest heq
    injection heq with h1 h2
    exact absurd h1 (digit_ne_minus c hc)
  · rename_i rest heq
    injection heq with h1 h2
    exact absurd h1 (digit_ne_plus c hc)
  · rw [parseDigitsPrefix, htake]
    simp

theorem jsParseInt_decimalRepr (n : Nat) :
    jsParseInt (decimalRepr n) = some ((n : Nat) : Int) := by
  rw [jsParseInt_of_digits (decimalRepr n) (decimalRepr_ne_nil n)
    (decimalRepr_all_digits n), digitsToNat_decimalRepr]

/-! Lemmas giving the regexp count over the `encodeURI` image its
intended reading: the UTF-8 byte size of the string. -/

theorem countMatches_cons_ne (c : Char) (rest : List Char) (h : ¬c = '%') :
    countMatches (c :: rest) = 1 + countMatches rest := by
  rcases rest with _ | ⟨a, _ | ⟨b, t⟩⟩ <;> simp [countMatches, h]

theorem countMatches_pct_append (bs : List Nat) (rest : List Char) :
    countMatches (bs.flatMap pctByte ++ rest) = bs.length + countMatches rest := by
  induction bs with
  | nil => simp
  | cons b bs ih =>
    have hstep :
        countMatches (pctByte b ++ (bs.flatMap pctByte ++ rest)) =
          1 + countMatches (bs.flatMap pctByte ++ rest) := by
      simp [pctByte, countMatches]
    simp only [List.flatMap_cons, List.append_assoc, hstep, ih, List.length_cons]
    omega

theorem uriUnescaped_lt_128 (c : Char) (h : uriUnescaped c = true) : c.toNat < 128 := by
  simp [uriUnescaped] at h
  omega

theorem uriUnescaped_ne_pct (c : Char) (h : uriUnescaped c = true) : ¬c = '%' := by
  intro hc
  rw [hc] at h
  exact absurd h (by decide)

theorem charUtf8Size_of_lt_128 (c : Char) (h : c.toNat < 128) : charUtf8Size c = 1 := by
  simp [charUtf8Size, utf8Bytes, h]

theorem countMatches_encChar (c : Char) (rest : List Char) :
    countMatches
        ((if uriUnescaped c then [c] else (utf8Bytes c).flatMap pctByte) ++ rest) =
      charUtf8Size c + countMatches rest := by
  by_cases h : uriUnescaped c
  · rw [if_pos h, List.singleton_append, countMatches_cons_ne c rest
      (uriUnescaped_ne_pct c h), charUtf8Size_of_lt_128 c (uriUnescaped_lt_128 c h)]
  · rw [if_neg h, countMatches_pct_append]
    rfl

theorem countMatches_encodeURI (s : List Char) :
    countMatches (encodeURI s) = (s.map charUtf8Size).sum := by
  induction s with
  | nil => rfl
  | cons c cs ih =>
    simp only [encodeURI, List.flatMap_cons] at *
    rw [countMatches_encChar, ih, List.map_cons, List.sum_cons]

theorem sizeOfUTF8_eq_sum (s : List Char) :
    sizeOfUTF8 s = (s.map charUtf8Size).sum := by
  cases s with
  | nil => rfl
  | cons c cs =>
    rw [sizeOfUTF8, if_neg (by simp)]
    exact countMatches_encodeURI (c :: cs)

theorem sizeOfUTF8_ascii (s : List Char) (h : ∀ c ∈ s, c.toNat < 128) :
    sizeOfUTF8 s = s.length := by
  rw [sizeOfUTF8_eq_sum]
  induction s with
  | nil => rfl
  | cons c cs ih =>
    rw [List.map_cons, List.sum_cons, charUtf8Size_of_lt_128 c
      (h c (List.mem_cons_self c cs)), ih fun x hx => h x (List.mem_cons_of_mem c hx)]
    simp [Nat.add_comm]

theorem skipCL_false_of_ne (h : Headers)
    (hs : ¬jsLookup h clKey = some (JVal.bool false)) : Frame.skipCL h = false := by
  cases hval : jsLookup h clKey with
  | none => simp [Frame.skipCL, hval]
  | some v =>
    cases v with
    | str s => simp [Frame.skipCL, hval]
    | bool b =>
      cases b with
      | false => exact absurd hval hs
      | true => simp [Frame.skipCL, hval]

theorem toStringHeaderLines_unsuppressed (h : Headers) (body : List Char)
    (hb : ¬body = []) (hskip : Frame.skipCL h = false) :
    Frame.toStringHeaderLines h body =
      (Frame.headersAfter h).map Frame.renderHeader ++ [Frame.computedCL body] := by
  unfold Frame.toStringHeaderLines
  split
  · rfl
  · rename_i hcontra
    exact absurd ⟨by simpa using hb, by simp [hskip]⟩ hcontra

/-- C4: for a non-empty body with no suppression sentinel, the serialized
lines contain a content-length header whose value is the decimal UTF-8
byte count of the body (sum of per-character encoded byte widths), not
its character count. -/
theorem content_length_is_byte_count (command : List Char) (h : Headers)
    (body : List Char) (hb : ¬body = [])
    (hs : ¬jsLookup h clKey = some (JVal.bool false)) :
    (clKey ++ ':' :: decimalRepr ((body.map charUtf8Size).sum)) ∈
      Frame.toStringLines command h body := by
  have hskip : Frame.skipCL h = false := skipCL_false_of_ne h hs
  have hval : clKey ++ ':' :: decimalRepr ((body.map charUtf8Size).sum) =
      Frame.computedCL body := by
    rw [Frame.computedCL, sizeOfUTF8_eq_sum]
  have step : Frame.toStringLines command h body =
      command :: ((Frame.headersAfter h).map Frame.renderHeader ++
        [Frame.computedCL body] ++ [BYTES_LF :: body]) := by
    rw [Frame.toStringLines, toStringHeaderLines_unsuppressed h body hb hskip]
    simp [List.append_assoc]
  rw [hval, step]
  simp

/-- Witness for C4: a single three-byte character produces
content-length 3 although the character count is 1. -/
theorem content_length_is_byte_count_witness :
    ((clKey ++ ':' :: decimalRepr (([('€' : Char)].map charUtf8Size).sum)) ∈
        Frame.toStringLines (String.data "SEND") [] [('€' : Char)]) ∧
      ([('€' : Char)].map charUtf8Size).sum = 3 ∧ [('€' : Char)].length = 1 :=
  ⟨content_length_is_byte_count (String.data "SEND") [] [('€' : Char)]
      (by decide) (by decide),
   by decide, by decide⟩

/-- Name part of a wire header line: the characters before the first
colon. -/
def lineName (l : List Char) : List Char := l.takeWhile (fun c => ¬c = ':')

theorem lineName_append_colon (k v : List Char) (hk : ∀ c ∈ k, ¬c = ':') :
    lineName (k ++ ':' :: v) = k := by
  induction k with
  | nil => simp [lineName]
  | cons a t ih =>
    have ha : ¬a = ':' := hk a (List.mem_cons_self a t)
    have ih2 : lineName (t ++ ':' :: v) = t :=
      ih fun c hc => hk c (List.mem_cons_of_mem a hc)
    rw [List.cons_append, lineName, List.takeWhile_cons, if_pos (by simp [ha])]
    show a :: lineName (t ++ ':' :: v) = a :: t
    rw [ih2]

theorem skipCL_true_of_sentinel (h : Headers)
    (hsent : jsLookup h clKey = some (JVal.bool false)) : Frame.skipCL h = true := by
  simp [Frame.skipCL, hsent]

theorem toStringHeaderLines_suppressed (h : Headers) (body : List Char)
    (hskip : Frame.skipCL h = true) :
    Frame.toStringHeaderLines h body =
      (jsDelete h clKey).map Frame.renderHeader := by
  unfold Frame.toStringHeaderLines
  split
  · rename_i hcontra
    exact absurd hskip hcontra.2
  · rw [List.append_nil, Frame.headersAfter, if_pos hskip]

/-- C5: a frame whose headers bind content-length to the boolean sentinel
false and whose body is non-empty serializes with no content-length
header line at all: neither the sentinel entry nor a computed byte count
appears among the header lines. -/
theorem content_length_suppressed (command : List Char) (h : Headers)
    (body : List Char)
    (hsent : jsLookup h clKey = some (JVal.bool false)) (hb : ¬body = [])
    (hkeys : ∀ p ∈ h, ∀ c ∈ p.1, ¬c = ':') :
    (Frame.toStringHeaderLines h body).all
      (fun l => !(lineName l == clKey)) = true := by
  rw [toStringHeaderLines_suppressed h body (skipCL_true_of_sentinel h hsent)]
  rw [List.all_eq_true]
  intro l hl
  rcases List.mem_map.mp hl with ⟨p, hp, rfl⟩
  rcases mem_jsDelete h clKey p hp with ⟨hmem, hne⟩
  rw [Frame.renderHeader, lineName_append_colon p.1 (renderJVal p.2) (hkeys p hmem)]
  simp [hne]

/-- Witness for C5 with a destination header, the sentinel and a
non-empty body. -/
theorem content_length_suppressed_witness :
    (Frame.toStringHeaderLines
        [(Client.destKey, .str (String.data "/queue/a")), (clKey, .bool false)]
        (String.data "hi")).all (fun l => !(lineName l == clKey)) = true :=
  content_length_suppressed (String.data "SEND")
    [(Client.destKey, .str (String.data "/queue/a")), (clKey, .bool false)]
    (String.data "hi") (by decide) (by decide) (by decide)

theorem colon_mem_computedCL (body : List Char) :
    (':' : Char) ∈ Frame.computedCL body := by
  rw [Frame.computedCL]
  exact List.mem_append_right _ (List.mem_cons_self _ _)

/-- C10: serializing a frame whose headers carry the boolean
content-length sentinel deletes that key from the caller-visible headers
object, and serialization is not idempotent: the first pass emits no
computed content-length line, while a second pass over the same (now
mutated) frame does. -/
theorem toString_mutation_not_idempotent (command : List Char) (h : Headers)
    (body : List Char)
    (hsent : jsLookup h clKey = some (JVal.bool false)) (hb : ¬body = [])
    (hkeys : ∀ p ∈ h, ∀ c ∈ p.1, ¬c = ':') (hcmd : ∀ c ∈ command, ¬c = ':') :
    (Frame.toStringM command h body).2 = jsDelete h clKey ∧
      ¬Frame.computedCL body ∈ Frame.toStringLines command h body ∧
      Frame.computedCL body ∈
        Frame.toStringLines command (Frame.toStringM command h body).2 body := by
  have hskip := skipCL_true_of_sentinel h hsent
  have hafter : (Frame.toStringM command h body).2 = jsDelete h clKey := by
    show Frame.headersAfter h = _
    rw [Frame.headersAfter, if_pos hskip]
  refine ⟨hafter, ?_, ?_⟩
  · intro hmem
    rw [Frame.toStringLines, toStringHeaderLines_suppressed h body hskip] at hmem
    rcases List.mem_cons.mp hmem with hc | hc
    · exact hcmd ':' (hc ▸ colon_mem_computedCL body) rfl
    · rcases List.mem_append.mp hc with hc2 | hc2
      · rcases List.mem_map.mp hc2 with ⟨p, hp, hpe⟩
        rcases mem_jsDelete h clKey p hp with ⟨hmem2, hne⟩
        have h1 : lineName (Frame.renderHeader p) = p.1 := by
          rw [Frame.renderHeader]
          exact lineName_append_colon _ _ (hkeys p hmem2)
        have h2c : lineName (Frame.computedCL body) = clKey := by
          rw [Frame.computedCL]
          exact lineName_append_colon _ _ (by decide)
        rw [hpe, h2c] at h1
        exact hne h1.symm
      · have hhead : (Frame.computedCL body).head? = some 'c' := rfl
        rw [List.mem_singleton.mp hc2] at hhead
        simp [BYTES_LF] at hhead
  · rw [hafter]
    have hskip2 : Frame.skipCL (jsDelete h clKey) = false := by
      apply skipCL_false_of_ne
      rw [jsLookup_jsDelete_self]
      simp
    rw [Frame.toStringLines,
      toStringHeaderLines_unsuppressed (jsDelete h clKey) body hb hskip2]
    simp

/-- Witness for C10 with a destination header, the sentinel and a
non-empty body. -/
theorem toString_mutation_not_idempotent_witness :
    (Frame.toStringM (String.data "SEND")
        [(Client.destKey, .str (String.data "/q")), (clKey, .bool false)]
        (String.data "body")).2 =
      jsDelete [(Client.destKey, .str (String.data "/q")), (clKey, .bool false)]
        clKey ∧
      ¬Frame.computedCL (String.data "body") ∈
        Frame.toStringLines (String.data "SEND")
          [(Client.destKey, .str (String.data "/q")), (clKey, .bool false)]
          (String.data "body") ∧
      Frame.computedCL (String.data "body") ∈
        Frame.toStringLines (String.data "SEND")
          ((Frame.toStringM (String.data "SEND")
              [(Client.destKey, .str (String.data "/q")), (clKey, .bool false)]
              (String.data "body")).2)
          (String.data "body") :=
  toString_mutation_not_idempotent (String.data "SEND")
    [(Client.destKey, .str (String.data "/q")), (clKey, .bool false)]
    (String.data "body") (by decide) (by decide) (by decide) (by decide)

/-! Chunked transmission lemmas. -/

theorem transmitLoop_gt (m fuel : Nat) (out : List Char) (h : out.length > m) :
    Client.transmitLoop m (fuel + 1) out =
      out.take m :: Client.transmitLoop m fuel (out.drop m) := by
  simp [Client.transmitLoop, h]

theorem transmitLoop_le (m fuel : Nat) (out : List Char) (h : ¬out.length > m) :
    Client.transmitLoop m (fuel + 1) out = [out] := by
  simp [Client.transmitLoop, h]

theorem transmitChunks_split_40000 (s : List Char) (hlen : s.length = 40000) :
    Client.transmitChunks 16384 s =
      [s.take 16384, (s.drop 16384).take 16384, s.drop 32768] := by
  have hd1 : (s.drop 16384).length = 23616 := by
    rw [List.length_drop, hlen]
  have hd2 : ((s.drop 16384).drop 16384).length = 7232 := by
    rw [List.length_drop, hd1]
  have hdd : (s.drop 16384).drop 16384 = s.drop 32768 := by
    rw [List.drop_drop]
  rw [Client.transmitChunks, hlen]
  rw [show (40000 + 1 : Nat) = 40000 + 1 from rfl,
    transmitLoop_gt 16384 40000 s (by omega)]
  rw [show (40000 : Nat) = 39999 + 1 from rfl,
    transmitLoop_gt 16384 39999 (s.drop 16384) (by omega)]
  rw [show (39999 : Nat) = 39998 + 1 from rfl,
    transmitLoop_le 16384 39998 ((s.drop 16384).drop 16384) (by omega)]
  rw [hdd]

/-- C7: a marshalled frame of 40000 bytes with the 16384-byte WebSocket
chunk limit is sent as exactly three transport writes of sizes 16384,
16384 and 7232 in order, whose concatenation is the whole serialized
frame, the NULL sentinel still attached to the last chunk. -/
theorem transmit_40000_in_three_chunks (command : List Char) (h : Headers)
    (body : List Char) (hlen : (Frame.marshall command h body).length = 40000) :
    Client.transmitChunks 16384 (Frame.marshall command h body) =
        [(Frame.marshall command h body).take 16384,
         ((Frame.marshall command h body).drop 16384).take 16384,
         (Frame.marshall command h body).drop 32768] ∧
      (Client.transmitChunks 16384 (Frame.marshall command h body)).map
          List.length = [16384, 16384, 7232] ∧
      (Client.transmitChunks 16384 (Frame.marshall command h body)).flatten =
        Frame.marshall command h body ∧
      ((Frame.marshall command h body).drop 32768).getLast? =
        some BYTES_NULL := by
  have hsplit := transmitChunks_split_40000 _ hlen
  have hd1 : ((Frame.marshall command h body).drop 16384).length = 23616 := by
    rw [List.length_drop, hlen]
  refine ⟨hsplit, ?_, ?_, ?_⟩
  · rw [hsplit]
    simp only [List.map_cons, List.map_nil, List.length_take, List.length_drop, hlen,
      List.length_take, hd1]
    norm_num
  · rw [hsplit]
    have hdd : (Frame.marshall command h body).drop 32768 =
        ((Frame.marshall command h body).drop 16384).drop 16384 := by
      rw [List.drop_drop]
    simp only [hdd, List.flatten_cons, List.flatten_nil, List.append_nil]
    rw [List.take_append_drop, List.take_append_drop]
  · have hlast : (Frame.marshall command h body).getLast? = some BYTES_NULL := by
      rw [Frame.marshall, List.getLast?_concat]
    rw [List.getLast?_drop, if_neg (by omega)]
    exact hlast

theorem length_marshall_shape (A CL R : List Char) :
    ((A ++ BYTES_LF :: (CL ++ BYTES_LF :: BYTES_LF :: R)) ++ [BYTES_NULL]).length =
      A.length + CL.length + R.length + 4 := by
  simp [List.length_append, List.length_cons]
  omega

theorem marshall_send_39972_length :
    (Frame.marshall (String.data "SEND") [] (List.replicate 39972 'a')).length =
      40000 := by
  have hb : ¬(List.replicate 39972 'a') = [] := by
    intro hEq
    have hl := congrArg List.length hEq
    rw [List.length_replicate] at hl
    exact absurd hl (by decide)
  have hsize : sizeOfUTF8 (List.replicate 39972 'a') = 39972 := by
    rw [sizeOfUTF8_ascii _ fun c hc => by rw [List.eq_of_mem_replicate hc]; decide]
    exact List.length_replicate 39972 'a'
  have hlines :
      Frame.toStringLines (String.data "SEND") [] (List.replicate 39972 'a') =
        [String.data "SEND", Frame.computedCL (List.replicate 39972 'a'),
          BYTES_LF :: List.replicate 39972 'a'] := by
    rw [Frame.toStringLines,
      toStringHeaderLines_unsuppressed ([] : Headers) (List.replicate 39972 'a')
        hb rfl]
    rfl
  have hwire :
      Frame.toWire (String.data "SEND") [] (List.replicate 39972 'a') =
        String.data "SEND" ++ BYTES_LF ::
          (Frame.computedCL (List.replicate 39972 'a') ++ BYTES_LF ::
            BYTES_LF :: List.replicate 39972 'a') := by
    show Frame.joinLF
      (Frame.toStringLines (String.data "SEND") [] (List.replicate 39972 'a')) = _
    rw [hlines]
    rfl
  have hcl : (Frame.computedCL (List.replicate 39972 'a')).length = 20 := by
    rw [Frame.computedCL, hsize]
    decide
  have hsend : (String.data "SEND").length = 4 := rfl
  rw [Frame.marshall, hwire, length_marshall_shape, hsend, hcl,
    List.length_replicate]

/-- Witness for C7 on a concrete marshalled frame of exactly 40000
bytes. -/
theorem transmit_40000_in_three_chunks_witness :
    (Frame.marshall (String.data "SEND") [] (List.replicate 39972 'a')).length =
        40000 ∧
      (Client.transmitChunks 16384 (Frame.marshall (String.data "SEND") []
            (List.replicate 39972 'a')) =
          [(Frame.marshall (String.data "SEND") [] (List.replicate 39972 'a')).take
              16384,
            ((Frame.marshall (String.data "SEND") []
                (List.replicate 39972 'a')).drop 16384).take 16384,
            (Frame.marshall (String.data "SEND") []
                (List.replicate 39972 'a')).drop 32768] ∧
        (Client.transmitChunks 16384 (Frame.marshall (String.data "SEND") []
            (List.replicate 39972 'a'))).map List.length = [16384, 16384, 7232] ∧
        (Client.transmitChunks 16384 (Frame.marshall (String.data "SEND") []
            (List.replicate 39972 'a'))).flatten =
          Frame.marshall (String.data "SEND") [] (List.replicate 39972 'a') ∧
        ((Frame.marshall (String.data "SEND") []
            (List.replicate 39972 'a')).drop 32768).getLast? =
          some BYTES_NULL) :=
  ⟨marshall_send_39972_length,
   transmit_40000_in_three_chunks (String.data "SEND") []
     (List.replicate 39972 'a') marshall_send_39972_length⟩

/-! Structure lemmas for the NULL-separator splitter of `unmarshall`. -/

theorem splitNullLFAux_no_null :
    ∀ (s : List Char), BYTES_NULL ∉ s → ∀ fuel : Nat, s.length < fuel →
      Frame.splitNullLFAux fuel s = [s] := by
  intro s
  induction s with
  | nil =>
    intro _ fuel hf
    cases fuel with
    | zero => omega
    | succ g => rfl
  | cons c rest ih =>
    intro h fuel hf
    cases fuel with
    | zero => omega
    | succ g =>
      have hc : ¬c = BYTES_NULL := fun hh => h (hh ▸ List.mem_cons_self c rest)
      have hrest : BYTES_NULL ∉ rest := fun hm => h (List.mem_cons_of_mem c hm)
      simp only [Frame.splitNullLFAux, if_neg hc]
      rw [ih hrest g (by simp only [List.length_cons] at hf; omega)]

theorem splitNullLF_no_null (s : List Char) (h : BYTES_NULL ∉ s) :
    Frame.splitNullLF s = [s] :=
  splitNullLFAux_no_null s h (s.length + 1) (by omega)

theorem splitNullLFAux_append_null :
    ∀ (t : List Char), BYTES_NULL ∉ t → ∀ fuel : Nat,
      (t ++ [BYTES_NULL]).length < fuel →
      Frame.splitNullLFAux fuel (t ++ [BYTES_NULL]) = [t, []] := by
  intro t
  induction t with
  | nil =>
    intro _ fuel hf
    simp only [List.length_append, List.length_nil, List.length_cons] at hf
    cases fuel with
    | zero => omega
    | succ g =>
      cases g with
      | zero => omega
      | succ g2 =>
        simp [Frame.splitNullLFAux]
  | cons c rest ih =>
    intro h fuel hf
    cases fuel with
    | zero => omega
    | succ g =>
      have hc : ¬c = BYTES_NULL := fun hh => h (hh ▸ List.mem_cons_self c rest)
      have hrest : BYTES_NULL ∉ rest := fun hm => h (List.mem_cons_of_mem c hm)
      rw [List.cons_append]
      simp only [Frame.splitNullLFAux, if_neg hc]
      rw [ih hrest g (by simp only [List.cons_append, List.length_cons] at hf; omega)]

theorem splitNullLF_append_null (t : List Char) (h : BYTES_NULL ∉ t) :
    Frame.splitNullLF (t ++ [BYTES_NULL]) = [t, []] :=
  splitNullLFAux_append_null t h ((t ++ [BYTES_NULL]).length + 1) (by omega)

theorem hasNullLFSuffix_false (l : List Char) (h : BYTES_NULL ∉ l) :
    Frame.hasNullLFSuffix l = false := by
  have hnot :
      ¬(l.reverse.dropWhile (fun x => x = BYTES_LF)).head? = some BYTES_NULL := by
    intro heq
    have hmem : BYTES_NULL ∈ l.reverse.dropWhile (fun x => x = BYTES_LF) :=
      List.mem_of_mem_head? heq
    have hrev : BYTES_NULL ∈ l.reverse :=
      (List.dropWhile_sublist (fun x => x = BYTES_LF)).mem hmem
    exact h (List.mem_reverse.mp hrev)
  simp only [Frame.hasNullLFSuffix]
  exact decide_eq_false hnot

/-- Result of `unmarshall` on a NULL-free buffer: nothing is emitted and
the whole buffer comes back as the partial remainder (provided the
buffer is not the bare-heartbeat linefeed). -/
theorem unmarshall_no_null (c1 : List Char) (hnull : BYTES_NULL ∉ c1)
    (hne : ¬c1 = [BYTES_LF]) :
    Frame.unmarshall c1 = ⟨[], c1⟩ := by
  have hsplit := splitNullLF_no_null c1 hnull
  have hsuf := hasNullLFSuffix_false c1 hnull
  rw [Frame.unmarshall]
  rw [hsplit]
  rw [if_neg]
  · simp
  · have hlast : ([c1] : List (List Char)).getLastD [] = c1 := rfl
    intro hor
    rw [hlast] at hor
    rcases hor with hc | hc
    · exact hne hc
    · rw [hsuf] at hc
      cases hc

/-- Result of `unmarshall` on one complete NULL-terminated frame: exactly
one parsed frame and an empty remainder. -/
theorem unmarshall_single_terminated (t : List Char) (hnull : BYTES_NULL ∉ t) :
    Frame.unmarshall (t ++ [BYTES_NULL]) = ⟨[Frame.unmarshallSingle t], []⟩ := by
  have hsplit := splitNullLF_append_null t hnull
  rw [Frame.unmarshall]
  rw [hsplit]
  rw [if_neg]
  · simp
  · have hlast : ([t, []] : List (List Char)).getLastD [] = [] := rfl
    intro hor
    rw [hlast] at hor
    rcases hor with hc | hc
    · simp at hc
    · rw [show Frame.hasNullLFSuffix ([] : List Char) = false from rfl] at hc
      cases hc

theorem take_marshall_prefix (t : List Char) (k : Nat) (hk : k ≤ t.length) :
    (t ++ [BYTES_NULL]).take k = t.take k := by
  rw [List.take_append_eq_append_take, Nat.sub_eq_zero_of_le hk]
  simp

theorem take_ne_lf (t : List Char) (k : Nat)
    (hhead : ¬t.head? = some BYTES_LF) : ¬t.take k = [BYTES_LF] := by
  intro heq
  cases t with
  | nil => rw [List.take_nil] at heq; cases heq
  | cons a rest =>
    cases k with
    | zero => rw [List.take_zero] at heq; cases heq
    | succ k2 =>
      rw [List.take_succ_cons] at heq
      injection heq with h1 h2
      exact hhead (by rw [List.head?_cons, h1])

/-- C2: splitting a serialized frame (NULL-free payload, command not
starting with a linefeed) at any offset strictly inside the buffer,
`unmarshall` emits no frame on the first chunk and returns it whole as
the partial remainder; the remainder concatenated with the second chunk
is the original buffer, whose single parse equals the one-shot parse:
exactly one frame, the parse of the payload, with an empty remainder. -/
theorem unmarshall_fragmentation
    (command : List Char) (h : Headers) (body : List Char) (k : Nat)
    (hnull : BYTES_NULL ∉ Frame.toWire command h body)
    (hhead : ¬(Frame.toWire command h body).head? = some BYTES_LF)
    (hk : k ≤ (Frame.toWire command h body).length) :
    (Frame.unmarshall ((Frame.marshall command h body).take k)).frames = [] ∧
      (Frame.unmarshall ((Frame.marshall command h body).take k)).partialData =
        (Frame.marshall command h body).take k ∧
      Frame.unmarshall
          ((Frame.unmarshall ((Frame.marshall command h body).take k)).partialData
            ++ (Frame.marshall command h body).drop k) =
        Frame.unmarshall (Frame.marshall command h body) ∧
      (Frame.unmarshall (Frame.marshall command h body)).frames =
        [Frame.unmarshallSingle (Frame.toWire command h body)] ∧
      (Frame.unmarshall (Frame.marshall command h body)).partialData = [] := by
  have hm : Frame.marshall command h body =
      Frame.toWire command h body ++ [BYTES_NULL] := rfl
  have htake : (Frame.marshall command h body).take k =
      (Frame.toWire command h body).take k := by
    rw [hm]
    exact take_marshall_prefix _ k hk
  have hnull1 : BYTES_NULL ∉ (Frame.toWire command h body).take k :=
    fun hmem => hnull (List.take_subset k _ hmem)
  have hchunk := unmarshall_no_null _ hnull1 (take_ne_lf _ k hhead)
  have hwhole := unmarshall_single_terminated _ hnull
  have hpd : (Frame.unmarshall ((Frame.marshall command h body).take k)).partialData
      = (Frame.marshall command h body).take k := by
    rw [htake, hchunk]
  refine ⟨?_, hpd, ?_, ?_, ?_⟩
  · rw [htake, hchunk]
  · rw [hpd, List.take_append_drop]
  · rw [hm, hwhole]
  · rw [hm, hwhole]

/-- Witness for C2 on a concrete frame split after five bytes. -/
theorem unmarshall_fragmentation_witness :
    (BYTES_NULL ∉ Frame.toWire (String.data "CMD") [] (String.data "x") ∧
      ¬(Frame.toWire (String.data "CMD") [] (String.data "x")).head? =
          some BYTES_LF ∧
      5 ≤ (Frame.toWire (String.data "CMD") [] (String.data "x")).length) ∧
    ((Frame.unmarshall ((Frame.marshall (String.data "CMD") []
          (String.data "x")).take 5)).frames = [] ∧
      (Frame.unmarshall ((Frame.marshall (String.data "CMD") []
          (String.data "x")).take 5)).partialData =
        (Frame.marshall (String.data "CMD") [] (String.data "x")).take 5 ∧
      Frame.unmarshall
          ((Frame.unmarshall ((Frame.marshall (String.data "CMD") []
              (String.data "x")).take 5)).partialData ++
            (Frame.marshall (String.data "CMD") [] (String.data "x")).drop 5) =
        Frame.unmarshall (Frame.marshall (String.data "CMD") [] (String.data "x")) ∧
      (Frame.unmarshall (Frame.marshall (String.data "CMD") []
          (String.data "x"))).frames =
        [Frame.unmarshallSingle (Frame.toWire (String.data "CMD") []
          (String.data "x"))] ∧
      (Frame.unmarshall (Frame.marshall (String.data "CMD") []
          (String.data "x"))).partialData = []) :=
  ⟨⟨by decide, by decide, by decide⟩,
   unmarshall_fragmentation (String.data "CMD") [] (String.data "x") 5
     (by decide) (by decide) (by decide)⟩

/-- Counterexample to the unrestricted round-trip claim: serializing a
body of one three-byte character advertises content-length 3, but body
extraction counts 3 characters from the body start and therefore drags
the NULL sentinel into the parsed body. -/
theorem roundtrip_fails_on_multibyte_body :
    ¬(Frame.unmarshallSingle
        (Frame.marshall (String.data "MESSAGE") [] ['€'])).body = ['€'] := by
  decide

/-! Wire-shape lemmas used by the round-trip proof: position of the
header/body divider, splitting the joined header block back into lines,
and substring extraction. -/

/-- No two adjacent linefeeds. -/
def NoTwoLF (l : List Char) : Prop :=
  l.Chain' fun a b => ¬(a = BYTES_LF ∧ b = BYTES_LF)

theorem noTwoLF_of_no_lf (x : List Char) (h : BYTES_LF ∉ x) : NoTwoLF x := by
  induction x with
  | nil => exact List.chain'_nil
  | cons a t ih =>
    rw [NoTwoLF, List.chain'_cons']
    refine ⟨?_, ih fun hm => h (List.mem_cons_of_mem a hm)⟩
    intro b _ hab
    exact h (hab.1 ▸ List.mem_cons_self a t)

theorem getLast?_ne_of_not_mem (x : List Char) (h : BYTES_LF ∉ x) :
    ¬x.getLast? = some BYTES_LF := by
  intro heq
  rcases List.mem_getLast?_eq_getLast heq with ⟨hne2, hx⟩
  exact h (by rw [hx]; exact List.getLast_mem hne2)

theorem findLFLF_append (pre rest : List Char) (hpre : NoTwoLF pre)
    (hlast : ¬pre.getLast? = some BYTES_LF) :
    findLFLF (pre ++ BYTES_LF :: BYTES_LF :: rest) = some pre.length := by
  induction pre with
  | nil => rfl
  | cons a pre2 ih =>
    cases pre2 with
    | nil =>
      have ha : ¬a = BYTES_LF := by
        intro hh
        exact hlast (by rw [hh]; rfl)
      have hstep : findLFLF ([a] ++ BYTES_LF :: BYTES_LF :: rest) =
          if a = BYTES_LF ∧
              (BYTES_LF :: BYTES_LF :: rest).head? = some BYTES_LF
          then some 0
          else (findLFLF (BYTES_LF :: BYTES_LF :: rest)).map (· + 1) := rfl
      rw [hstep, if_neg fun hand => ha hand.1]
      rfl
    | cons b pre3 =>
      have hrel := (List.chain'_cons.mp hpre).1
      have hpre2 : NoTwoLF (b :: pre3) := (List.chain'_cons.mp hpre).2
      have hlast2 : ¬(b :: pre3).getLast? = some BYTES_LF := by
        rw [List.getLast?_cons_cons] at hlast
        exact hlast
      have hstep : findLFLF ((a :: b :: pre3) ++ BYTES_LF :: BYTES_LF :: rest) =
          if a = BYTES_LF ∧
              ((b :: pre3) ++ BYTES_LF :: BYTES_LF :: rest).head? = some BYTES_LF
          then some 0
          else (findLFLF ((b :: pre3) ++ BYTES_LF :: BYTES_LF :: rest)).map
            (· + 1) := rfl
      rw [hstep, if_neg, ih hpre2 hlast2]
      · rfl
      · rw [List.cons_append, List.head?_cons]
        intro hand
        exact hrel ⟨hand.1, Option.some.inj hand.2⟩

theorem jsSplitLF_no_lf (x : List Char) (h : BYTES_LF ∉ x) :
    jsSplitLF x = [x] := by
  induction x with
  | nil => rfl
  | cons a t ih =>
    have ha : ¬a = BYTES_LF := fun hh => h (hh ▸ List.mem_cons_self a t)
    have ht : BYTES_LF ∉ t := fun hm => h (List.mem_cons_of_mem a hm)
    rw [jsSplitLF, if_neg ha, ih ht]

theorem jsSplitLF_append_lf (x t : List Char) (h : BYTES_LF ∉ x) :
    jsSplitLF (x ++ BYTES_LF :: t) = x :: jsSplitLF t := by
  induction x with
  | nil =>
    rw [List.nil_append, jsSplitLF, if_pos rfl]
  | cons a x2 ih =>
    have ha : ¬a = BYTES_LF := fun hh => h (hh ▸ List.mem_cons_self a x2)
    have hx2 : BYTES_LF ∉ x2 := fun hm => h (List.mem_cons_of_mem a hm)
    rw [List.cons_append, jsSplitLF, if_neg ha, ih hx2]

theorem jsSplitLF_joinLF (ps : List (List Char)) (hne : ¬ps = [])
    (hall : ∀ p ∈ ps, BYTES_LF ∉ p) :
    jsSplitLF (Frame.joinLF ps) = ps := by
  induction ps with
  | nil => exact absurd rfl hne
  | cons x ps2 ih =>
    cases ps2 with
    | nil =>
      rw [show Frame.joinLF [x] = x from rfl]
      exact jsSplitLF_no_lf x (hall x (List.mem_cons_self x []))
    | cons y ps3 =>
      rw [show Frame.joinLF (x :: y :: ps3) =
        x ++ BYTES_LF :: Frame.joinLF (y :: ps3) from rfl]
      rw [jsSplitLF_append_lf x _ (hall x (List.mem_cons_self x (y :: ps3)))]
      rw [ih (by simp) fun p hp => hall p (List.mem_cons_of_mem x hp)]

theorem joinLF_ne_nil (y : List Char) (ps : List (List Char)) (hy : ¬y = []) :
    ¬Frame.joinLF (y :: ps) = [] := by
  cases ps with
  | nil => exact hy
  | cons z ps2 =>
    show ¬y ++ BYTES_LF :: Frame.joinLF (z :: ps2) = []
    simp

theorem head?_joinLF (y : List Char) (ps : List (List Char)) (hy : ¬y = []) :
    (Frame.joinLF (y :: ps)).head? = y.head? := by
  obtain ⟨a, t, rfl⟩ := List.exists_cons_of_ne_nil hy
  cases ps with
  | nil => rfl
  | cons z ps2 => rfl

theorem joinLF_noTwoLF (ps : List (List Char))
    (hall : ∀ p ∈ ps, BYTES_LF ∉ p) (htail : ∀ p ∈ ps.tail, ¬p = []) :
    NoTwoLF (Frame.joinLF ps) ∧
      ¬(Frame.joinLF ps).getLast? = some BYTES_LF := by
  induction ps with
  | nil =>
    refine ⟨List.chain'_nil, ?_⟩
    rw [show Frame.joinLF [] = [] from rfl]
    simp
  | cons x ps2 ih =>
    cases ps2 with
    | nil =>
      have hx := hall x (List.mem_cons_self x [])
      exact ⟨noTwoLF_of_no_lf x hx, getLast?_ne_of_not_mem x hx⟩
    | cons y ps3 =>
      obtain ⟨ihChain, ihLast⟩ :=
        ih (fun p hp => hall p (List.mem_cons_of_mem x hp))
          (fun p hp => htail p (List.mem_cons_of_mem y hp))
      have hy : ¬y = [] := htail y (List.mem_cons_self y ps3)
      have hxLF := hall x (List.mem_cons_self x (y :: ps3))
      have hyLF := hall y (List.mem_cons_of_mem x (List.mem_cons_self y ps3))
      constructor
      · show NoTwoLF (x ++ BYTES_LF :: Frame.joinLF (y :: ps3))
        rw [NoTwoLF, List.chain'_append]
        refine ⟨noTwoLF_of_no_lf x hxLF, ?_, ?_⟩
        · rw [List.chain'_cons']
          refine ⟨?_, ihChain⟩
          intro b hb hand
          rw [head?_joinLF y ps3 hy] at hb
          exact hyLF (hand.2 ▸ List.mem_of_mem_head? hb)
        · intro a ha b hb hand
          rcases List.mem_getLast?_eq_getLast ha with ⟨hne2, hx2⟩
          exact hxLF (hand.1 ▸ hx2 ▸ List.getLast_mem hne2)
      · show ¬(x ++ BYTES_LF :: Frame.joinLF (y :: ps3)).getLast? = some BYTES_LF
        rw [List.getLast?_append_of_ne_nil x (by simp)]
        have hJ : ¬Frame.joinLF (y :: ps3) = [] := joinLF_ne_nil y ps3 hy
        obtain ⟨c, J2, hJe⟩ := List.exists_cons_of_ne_nil hJ
        rw [hJe, List.getLast?_cons_cons]
        rw [hJe] at ihLast
        exact ihLast

theorem clampIdx_ofNat (n len : Nat) (h : n ≤ len) :
    clampIdx (n : Int) len = n := by
  rw [clampIdx]
  omega

theorem jsSubstring_of_nat (s : List Char) (a b : Nat) (ha : a ≤ s.length)
    (hb : b ≤ s.length) (hab : a ≤ b) :
    jsSubstring s (a : Int) (b : Int) = (s.take b).drop a := by
  simp only [jsSubstring]
  rw [clampIdx_ofNat a _ ha, clampIdx_ofNat b _ hb,
    Nat.max_eq_right hab, Nat.min_eq_left hab]

theorem jsSubstring_prefix (x y : List Char) :
    jsSubstring (x ++ y) 0 (x.length : Int) = x := by
  have h0 := jsSubstring_of_nat (x ++ y) 0 x.length (by simp)
    (by simp) (by simp)
  rw [show ((0 : Nat) : Int) = (0 : Int) from rfl] at h0
  rw [h0, List.drop_zero, List.take_left]

theorem jsSubstring_infix (x y z : List Char) :
    jsSubstring ((x ++ y) ++ z) (x.length : Int)
      ((x.length + y.length : Nat) : Int) = y := by
  have h0 := jsSubstring_of_nat ((x ++ y) ++ z) x.length (x.length + y.length)
    (by simp) (by simp) (by omega)
  rw [h0]
  rw [show x.length + y.length = (x ++ y).length by simp]
  rw [List.take_left, List.drop_left]

theorem jsSubstring_suffix (x y : List Char) :
    jsSubstring (x ++ y) (x.length : Int) (((x ++ y).length : Nat) : Int) = y := by
  have h0 := jsSubstring_of_nat (x ++ y) x.length (x ++ y).length
    (by simp) (by omega) (by simp)
  rw [h0, List.take_length, List.drop_left]

theorem trim_of_no_space (s : List Char) (h : ∀ c ∈ s, jsIsSpace c = false) :
    trim s = s := by
  have d1 : ∀ (l : List Char), (∀ c ∈ l, jsIsSpace c = false) →
      l.dropWhile jsIsSpace = l := by
    intro l hl
    cases l with
    | nil => rfl
    | cons a t =>
      rw [List.dropWhile_cons, hl a (List.mem_cons_self a t)]
      simp
  rw [trim, d1 s h, d1 s.reverse fun c hc => h c (List.mem_reverse.mp hc),
    List.reverse_reverse]

theorem jsIndexOf_no_colon (k : List Char) (hk : ∀ c ∈ k, ¬c = ':') :
    ∀ v : List Char, jsIndexOf (k ++ ':' :: v) ':' = (k.length : Int) := by
  induction k with
  | nil => intro v; rfl
  | cons a t ih =>
    intro v
    have ha : ¬a = ':' := hk a (List.mem_cons_self a t)
    have hstep : jsIndexOf ((a :: t) ++ ':' :: v) ':' =
        if a = ':' then (0 : Int)
        else match jsIndexOf (t ++ ':' :: v) ':' with
          | -1 => -1
          | i => i + 1 := rfl
    rw [hstep, if_neg ha, ih (fun c hc => hk c (List.mem_cons_of_mem a hc)) v]
    split
    · rename_i heq
      omega
    · simp [List.length_cons]

theorem parseHeaderLine_render_str (k s : List Char) (hk : ∀ c ∈ k, ¬c = ':')
    (htk : trim k = k) (hts : trim s = s) :
    Frame.parseHeaderLine (k ++ ':' :: s) = (k, .str s) := by
  simp only [Frame.parseHeaderLine]
  rw [jsIndexOf_no_colon k hk s, jsSubstring_prefix k (':' :: s), htk]
  have hline : k ++ ':' :: s = (k ++ [':']) ++ s := by
    rw [List.append_cons]
  have hcast : (k.length : Int) + 1 = (((k ++ [':']).length : Nat) : Int) := by
    simp
  rw [jsSubstringFrom, hline, hcast, jsSubstring_suffix (k ++ [':']) s, hts]

theorem toStringHeaderLines_empty_body (h : Headers) :
    Frame.toStringHeaderLines h [] =
      (Frame.headersAfter h).map Frame.renderHeader := by
  unfold Frame.toStringHeaderLines
  split
  · rename_i hcond
    exact absurd (by decide : ([] : List Char).isEmpty = true) hcond.1
  · exact List.append_nil _

theorem joinLF_append_single (ps : List (List Char)) (hne : ¬ps = [])
    (x : List Char) :
    Frame.joinLF (ps ++ [x]) = Frame.joinLF ps ++ BYTES_LF :: x := by
  induction ps with
  | nil => exact absurd rfl hne
  | cons y ps2 ih =>
    cases ps2 with
    | nil => rfl
    | cons z ps3 =>
      show y ++ BYTES_LF :: Frame.joinLF ((z :: ps3) ++ [x]) =
        (y ++ BYTES_LF :: Frame.joinLF (z :: ps3)) ++ BYTES_LF :: x
      rw [ih (by simp)]
      simp

theorem digit_ne_lf (c : Char) (h : isDigitChar c = true) : ¬c = BYTES_LF := by
  intro hc
  rw [hc] at h
  exact absurd h (by decide)

theorem lf_not_mem_decimalRepr (n : Nat) : BYTES_LF ∉ decimalRepr n := by
  intro hm
  exact digit_ne_lf BYTES_LF (decimalRepr_all_digits n BYTES_LF hm) rfl

theorem trim_decimalRepr (n : Nat) : trim (decimalRepr n) = decimalRepr n :=
  trim_of_no_space _ fun c hc => digit_not_space c (decimalRepr_all_digits n c hc)

theorem unmarshallSingle_body_expr (data : List Char) :
    (Frame.unmarshallSingle data).body =
      (if truthy (jsLookup (Frame.parseHeaderLines (Frame.wireHeaderLines data))
          clKey) then
        match (match jsLookup (Frame.parseHeaderLines (Frame.wireHeaderLines data))
                clKey with
               | some v => jsParseInt (renderJVal v)
               | none => none) with
        | some len =>
          jsSubstring data (searchLFLF data + 2) (searchLFLF data + 2 + len)
        | none => jsSubstring data (searchLFLF data + 2) 0
      else
        (data.drop (searchLFLF data + 2).toNat).takeWhile
          (fun c => ¬c = BYTES_NULL)) := rfl

theorem unmarshallSingle_body_of_cl (data : List Char) (n : Nat)
    (hcl : jsLookup (Frame.parseHeaderLines (Frame.wireHeaderLines data)) clKey =
      some (JVal.str (decimalRepr n))) :
    (Frame.unmarshallSingle data).body =
      jsSubstring data (searchLFLF data + 2) (searchLFLF data + 2 + (n : Int)) := by
  rw [unmarshallSingle_body_expr, hcl]
  rw [if_pos (by simp [truthy, decimalRepr_ne_nil n])]
  rw [show (match some (JVal.str (decimalRepr n)) with
           | some v => jsParseInt (renderJVal v)
           | none => none) = jsParseInt (decimalRepr n) from rfl]
  rw [jsParseInt_decimalRepr n]

theorem unmarshallSingle_body_of_none (data : List Char)
    (hcl : jsLookup (Frame.parseHeaderLines (Frame.wireHeaderLines data)) clKey =
      none) :
    (Frame.unmarshallSingle data).body =
      (data.drop (searchLFLF data + 2).toNat).takeWhile
        (fun c => ¬c = BYTES_NULL) := by
  rw [unmarshallSingle_body_expr, hcl]
  rfl

theorem unmarshallSingle_command (data : List Char) :
    (Frame.unmarshallSingle data).command = Frame.wireCommand data := rfl

theorem computedCL_no_lf (b : List Char) : BYTES_LF ∉ Frame.computedCL b := by
  rw [Frame.computedCL]
  intro hm
  rcases List.mem_append.mp hm with hx | hx
  · exact absurd hx (by decide)
  · rcases List.mem_cons.mp hx with hc | hc
    · exact absurd hc (by decide)
    · exact lf_not_mem_decimalRepr _ hc

theorem renderHeader_no_lf (p : List Char × JVal) (hpLF : BYTES_LF ∉ p.1)
    (s : List Char) (hs : p.2 = JVal.str s) (hsLF : BYTES_LF ∉ s) :
    BYTES_LF ∉ Frame.renderHeader p := by
  rw [Frame.renderHeader, hs]
  intro hmem
  rcases List.mem_append.mp hmem with hx | hx
  · exact hpLF hx
  · rcases List.mem_cons.mp hx with hc | hc
    · exact absurd hc (by decide)
    · exact hsLF hc

theorem renderHeader_ne_nil (p : List Char × JVal) :
    ¬Frame.renderHeader p = [] := by
  rw [Frame.renderHeader]
  simp

theorem computedCL_ne_nil (b : List Char) : ¬Frame.computedCL b = [] := by
  rw [Frame.computedCL]
  simp

/-- C1 (amended): round-trip through `marshall` and `unmarshallSingle`
holds for well-formed frames: a linefeed-free command, header names that
are linefeed-free, colon-free, trim-stable and distinct from
content-length, string header values that are linefeed-free and
trim-stable, and an all-ASCII body.  The parsed command and body equal
the originals, every header other than content-length looks up to its
original value, and content-length is bound to the decimal byte count of
the body exactly when the body is non-empty. -/
theorem roundtrip_marshall_unmarshallSingle
    (command : List Char) (h : Headers) (body : List Char) (key : List Char)
    (hcmd : BYTES_LF ∉ command)
    (hhdr : ∀ p ∈ h, BYTES_LF ∉ p.1 ∧ (∀ c ∈ p.1, ¬c = ':') ∧ trim p.1 = p.1 ∧
      ¬p.1 = clKey ∧ ∃ s, p.2 = JVal.str s ∧ BYTES_LF ∉ s ∧ trim s = s)
    (hascii : ∀ c ∈ body, c.toNat < 128)
    (hkey : ¬key = clKey) :
    (Frame.unmarshallSingle (Frame.marshall command h body)).command = command ∧
      (Frame.unmarshallSingle (Frame.marshall command h body)).body = body ∧
      jsLookup (Frame.unmarshallSingle (Frame.marshall command h body)).headers
          key = jsLookup h key ∧
      jsLookup (Frame.unmarshallSingle (Frame.marshall command h body)).headers
          clKey =
        (if body = [] then none
         else some (JVal.str (decimalRepr body.length))) := by
  have hnoCL : jsLookup h clKey = none :=
    jsLookup_eq_none h clKey fun p hp => (hhdr p hp).2.2.2.1
  have hskip : Frame.skipCL h = false :=
    skipCL_false_of_ne h (by rw [hnoCL]; intro hcontra; cases hcontra)
  have hafter : Frame.headersAfter h = h := by
    simp [Frame.headersAfter, hskip]
  have hHL : Frame.toStringHeaderLines h body =
      h.map Frame.renderHeader ++
        (if body = [] then [] else [Frame.computedCL body]) := by
    by_cases hbe : body = []
    · subst hbe
      rw [toStringHeaderLines_empty_body, hafter, if_pos rfl, List.append_nil]
    · rw [toStringHeaderLines_unsuppressed h body hbe hskip, hafter, if_neg hbe]
  have hlineFacts : ∀ line ∈ Frame.toStringHeaderLines h body,
      BYTES_LF ∉ line ∧ ¬line = [] := by
    intro line hl
    rw [hHL] at hl
    rcases List.mem_append.mp hl with hm | hm
    · rcases List.mem_map.mp hm with ⟨p, hp, rfl⟩
      obtain ⟨hpLF, _, _, _, s, hs, hsLF, _⟩ := hhdr p hp
      exact ⟨renderHeader_no_lf p hpLF s hs hsLF, renderHeader_ne_nil p⟩
    · by_cases hbe : body = []
      · rw [if_pos hbe] at hm
        cases hm
      · rw [if_neg hbe] at hm
        rcases List.mem_singleton.mp hm with rfl
        exact ⟨computedCL_no_lf body, computedCL_ne_nil body⟩
  have hpiecesLF : ∀ p ∈ command :: Frame.toStringHeaderLines h body,
      BYTES_LF ∉ p := by
    intro p hp
    rcases List.mem_cons.mp hp with rfl | hp2
    · exact hcmd
    · exact (hlineFacts p hp2).1
  have hpiecesNE : ∀ p ∈ (command :: Frame.toStringHeaderLines h body).tail,
      ¬p = [] := by
    intro p hp
    exact (hlineFacts p hp).2
  have hwire : Frame.toWire command h body =
      Frame.joinLF (command :: Frame.toStringHeaderLines h body) ++
        BYTES_LF :: BYTES_LF :: body := by
    show Frame.joinLF (Frame.toStringLines command h body) = _
    have hstep : Frame.toStringLines command h body =
        (command :: Frame.toStringHeaderLines h body) ++ [BYTES_LF :: body] := rfl
    rw [hstep, joinLF_append_single _ (by simp) _]
  have hdata : Frame.marshall command h body =
      Frame.joinLF (command :: Frame.toStringHeaderLines h body) ++
        BYTES_LF :: BYTES_LF :: (body ++ [BYTES_NULL]) := by
    rw [Frame.marshall, hwire]
    simp
  have hNT := joinLF_noTwoLF (command :: Frame.toStringHeaderLines h body)
    hpiecesLF hpiecesNE
  have hfind : findLFLF (Frame.marshall command h body) =
      some (Frame.joinLF (command :: Frame.toStringHeaderLines h body)).length := by
    rw [hdata]
    exact findLFLF_append _ _ hNT.1 hNT.2
  have hsearch : searchLFLF (Frame.marshall command h body) =
      ((Frame.joinLF (command :: Frame.toStringHeaderLines h body)).length :
        Int) := by
    rw [searchLFLF, hfind]
  have hsub : jsSubstring (Frame.marshall command h body) 0
      ((Frame.joinLF (command :: Frame.toStringHeaderLines h body)).length :
        Int) =
      Frame.joinLF (command :: Frame.toStringHeaderLines h body) := by
    rw [hdata]
    exact jsSubstring_prefix _ _
  have hsplit :
      jsSplitLF (Frame.joinLF (command :: Frame.toStringHeaderLines h body)) =
        command :: Frame.toStringHeaderLines h body :=
    jsSplitLF_joinLF _ (by simp) hpiecesLF
  have hwc : Frame.wireCommand (Frame.marshall command h body) = command := by
    rw [Frame.wireCommand, hsearch, hsub, hsplit]
    rfl
  have hwh : Frame.wireHeaderLines (Frame.marshall command h body) =
      Frame.toStringHeaderLines h body := by
    rw [Frame.wireHeaderLines, hsearch, hsub, hsplit]
    rfl
  have hmap : (Frame.toStringHeaderLines h body).map Frame.parseHeaderLine =
      h ++ (if body = [] then []
            else [(clKey, JVal.str (decimalRepr (sizeOfUTF8 body)))]) := by
    rw [hHL, List.map_append]
    congr 1
    · rw [List.map_map]
      have hco : ∀ p ∈ h,
          (Frame.parseHeaderLine ∘ Frame.renderHeader) p = id p := by
        intro p hp
        obtain ⟨_, hpColon, hpTrim, _, s, hs, _, hsTrim⟩ := hhdr p hp
        show Frame.parseHeaderLine (Frame.renderHeader p) = p
        rw [Frame.renderHeader, hs,
          show renderJVal (JVal.str s) = s from rfl,
          parseHeaderLine_render_str p.1 s hpColon hpTrim hsTrim, ← hs]
      rw [List.map_congr_left hco, List.map_id]
    · by_cases hbe : body = []
      · rw [if_pos hbe, if_pos hbe]
        rfl
      · rw [if_neg hbe, if_neg hbe]
        show [Frame.parseHeaderLine (Frame.computedCL body)] = _
        rw [Frame.computedCL, parseHeaderLine_render_str clKey _ (by decide)
          (by decide) (trim_decimalRepr _)]
  have hlook : ∀ key2 : List Char,
      jsLookup (Frame.unmarshallSingle (Frame.marshall command h body)).headers
          key2 =
        jsLookup (h ++ (if body = [] then []
          else [(clKey, JVal.str (decimalRepr (sizeOfUTF8 body)))])) key2 := by
    intro key2
    rw [unmarshallSingle_headers, hwh, jsLookup_parseHeaderLines, hmap]
  refine ⟨?_, ?_, ?_, ?_⟩
  · rw [unmarshallSingle_command, hwc]
  · by_cases hbe : body = []
    · subst hbe
      have hclnone :
          jsLookup (Frame.parseHeaderLines (Frame.wireHeaderLines
            (Frame.marshall command h []))) clKey = none := by
        rw [← unmarshallSingle_headers, hlook clKey, if_pos rfl,
          List.append_nil, hnoCL]
      rw [unmarshallSingle_body_of_none _ hclnone, hsearch]
      have htn : ((List.length (Frame.joinLF
            (command :: Frame.toStringHeaderLines h [])) : Int) + 2).toNat =
          List.length (Frame.joinLF (command :: Frame.toStringHeaderLines h []))
            + 2 := by
        omega
      have hshape : Frame.joinLF (command :: Frame.toStringHeaderLines h []) ++
            BYTES_LF :: BYTES_LF :: (([] : List Char) ++ [BYTES_NULL]) =
          (Frame.joinLF (command :: Frame.toStringHeaderLines h []) ++
            [BYTES_LF, BYTES_LF]) ++ [BYTES_NULL] := by
        simp
      have hlenx : List.length (Frame.joinLF
            (command :: Frame.toStringHeaderLines h [])) + 2 =
          List.length (Frame.joinLF (command :: Frame.toStringHeaderLines h []) ++
            [BYTES_LF, BYTES_LF]) := by
        simp
      rw [htn, hdata, hshape, hlenx, List.drop_left]
      rfl
    · have hcl :
          jsLookup (Frame.parseHeaderLines (Frame.wireHeaderLines
            (Frame.marshall command h body))) clKey =
          some (JVal.str (decimalRepr (sizeOfUTF8 body))) := by
        rw [← unmarshallSingle_headers, hlook clKey, if_neg hbe,
          jsLookup_append, hnoCL]
        rfl
      rw [unmarshallSingle_body_of_cl _ (sizeOfUTF8 body) hcl, hsearch]
      have hX : Frame.marshall command h body =
          ((Frame.joinLF (command :: Frame.toStringHeaderLines h body) ++
            [BYTES_LF, BYTES_LF]) ++ body) ++ [BYTES_NULL] := by
        rw [hdata]
        simp
      have hlen2 : (List.length (Frame.joinLF
            (command :: Frame.toStringHeaderLines h body)) : Int) + 2 =
          ((List.length (Frame.joinLF (command :: Frame.toStringHeaderLines h body)
            ++ [BYTES_LF, BYTES_LF]) : Nat) : Int) := by
        simp
      have hlen3 : (List.length (Frame.joinLF
            (command :: Frame.toStringHeaderLines h body)) : Int) + 2 +
            (sizeOfUTF8 body : Int) =
          (((List.length (Frame.joinLF (command :: Frame.toStringHeaderLines h body)
            ++ [BYTES_LF, BYTES_LF]) + body.length) : Nat) : Int) := by
        rw [sizeOfUTF8_ascii body hascii]
        push_cast
        simp
      rw [hX, hlen3, hlen2, jsSubstring_infix]
  · rw [hlook key, jsLookup_append]
    have htail : jsLookup (if body = [] then []
        else [(clKey, JVal.str (decimalRepr (sizeOfUTF8 body)))]) key = none := by
      by_cases hbe : body = []
      · rw [if_pos hbe]
        rfl
      · rw [if_neg hbe]
        show (if clKey = key then some (JVal.str (decimalRepr (sizeOfUTF8 body)))
          else jsLookup [] key) = none
        rw [if_neg fun e => hkey e.symm]
        rfl
    rw [htail]
    cases hv : jsLookup h key <;> rfl
  · rw [hlook clKey, jsLookup_append, hnoCL]
    by_cases hbe : body = []
    · rw [if_pos hbe, if_pos hbe]
      rfl
    · rw [if_neg hbe, if_neg hbe, sizeOfUTF8_ascii body hascii]
      rfl

/-- Witness for C1 on a concrete MESSAGE frame with a destination header
and an ASCII body. -/
theorem roundtrip_marshall_unmarshallSingle_witness :
    (BYTES_LF ∉ String.data "MESSAGE" ∧
      (∀ p ∈ ([(String.data "destination", JVal.str (String.data "/queue/test"))] :
          Headers), BYTES_LF ∉ p.1 ∧ (∀ c ∈ p.1, ¬c = ':') ∧ trim p.1 = p.1 ∧
        ¬p.1 = clKey ∧ ∃ s, p.2 = JVal.str s ∧ BYTES_LF ∉ s ∧ trim s = s) ∧
      (∀ c ∈ String.data "hello", c.toNat < 128) ∧
      ¬String.data "destination" = clKey) ∧
    ((Frame.unmarshallSingle (Frame.marshall (String.data "MESSAGE")
        [(String.data "destination", JVal.str (String.data "/queue/test"))]
        (String.data "hello"))).command = String.data "MESSAGE" ∧
      (Frame.unmarshallSingle (Frame.marshall (String.data "MESSAGE")
        [(String.data "destination", JVal.str (String.data "/queue/test"))]
        (String.data "hello"))).body = String.data "hello" ∧
      jsLookup (Frame.unmarshallSingle (Frame.marshall (String.data "MESSAGE")
        [(String.data "destination", JVal.str (String.data "/queue/test"))]
        (String.data "hello"))).headers (String.data "destination") =
        jsLookup [(String.data "destination",
          JVal.str (String.data "/queue/test"))] (String.data "destination") ∧
      jsLookup (Frame.unmarshallSingle (Frame.marshall (String.data "MESSAGE")
        [(String.data "destination", JVal.str (String.data "/queue/test"))]
        (String.data "hello"))).headers clKey =
        (if String.data "hello" = [] then none
         else some (JVal.str (decimalRepr (String.data "hello").length)))) :=
  ⟨⟨by decide,
    by
      intro p hp
      rcases List.mem_singleton.mp hp with rfl
      exact ⟨by decide, by decide, by decide, by decide,
        String.data "/queue/test", rfl, by decide, by decide⟩,
    by decide, by decide⟩,
   roundtrip_marshall_unmarshallSingle (String.data "MESSAGE")
     [(String.data "destination", JVal.str (String.data "/queue/test"))]
     (String.data "hello") (String.data "destination")
     (by decide)
     (by
       intro p hp
       rcases List.mem_singleton.mp hp with rfl
       exact ⟨by decide, by decide, by decide, by decide,
         String.data "/queue/test", rfl, by decide, by decide⟩)
     (by decide) (by decide)⟩

end Stomp
